import Mathlib

/-!
Verification of the range-compaction-and-emission core of `unic-gen`
(`gen/src/generate/char_property/char_map.rs` and `char_set.rs`).

Codepoints are modelled as `Nat` (the Rust code compares them through
`as u32`); the association supplied by `BTreeMap<char, T>` iteration is
modelled as a `List (Nat × V)` with strictly ascending keys, and the
`BTreeSet<char>` iteration as a `List Nat` with strictly ascending
elements.  The `assert_eq` panic inside the compaction loops is modelled
by returning `none`.
-/

/-- Lowercase hexadecimal digit character: `0`-`9` then `a`-`f`,
as produced by Rust's `char::escape_unicode`. -/
def hexDigitChar (n : Nat) : Char :=
  if n < 10 then Char.ofNat (48 + n) else Char.ofNat (87 + n)

/-- Fuel-driven most-significant-first base-16 digit expansion.  With fuel at
least the number itself this computes the hex digits with no leading zeros
(and the single digit `0` for zero). -/
def hexDigitsCore : Nat → Nat → List Nat
  | 0, n => [n % 16]
  | fuel + 1, n => if n < 16 then [n] else hexDigitsCore fuel (n / 16) ++ [n % 16]

/-- The base-16 digits of `n`, most significant first, no leading zeros. -/
def hexDigits (n : Nat) : List Nat :=
  hexDigitsCore n n

/-- Rust `char::escape_unicode` rendered to a string: a backslash-u escape
with lowercase hexadecimal digits and no leading zeros. -/
def escape_unicode (c : Nat) : String :=
  "\\u\x7b" ++ String.mk ((hexDigits c).map hexDigitChar) ++ "\x7d"

/-- An emitted inclusive range of the map variant: `(low, high, value)`. -/
structure Range (V : Type) where
  low : Nat
  high : Nat
  value : V
  deriving DecidableEq

/-- An emitted inclusive range of the set variant: `(low, high)`. -/
structure SRange where
  low : Nat
  high : Nat
  deriving DecidableEq

namespace CharMap

/-- Rust `append_triple`: one output line of the map table. -/
def append_triple (out : String) (a b : Nat) (c : String) : String :=
  out ++ "    (\x27" ++ escape_unicode a ++ "\x27, \x27" ++ escape_unicode b ++
    "\x27, " ++ c ++ "),\n"

/-- The loop of `CharMap::to_bsearch_table`, abstracted to the sequence of
emitted ranges.  State `(low, high, value)` is the currently open range;
`none` models the `assert_eq` panic on a non-contiguous smaller codepoint. -/
def compactAux {V : Type} [DecidableEq V] (low high : Nat) (value : V) :
    List (Nat × V) → Option (List (Range V))
  | [] => some [⟨low, high, value⟩]
  | (c, p) :: rest =>
    if p ≠ value ∨ c > high + 1 then
      (compactAux c c p rest).map (fun rs => ⟨low, high, value⟩ :: rs)
    else if c = high + 1 then
      compactAux low c value rest
    else
      none

/-- The ranges emitted by `CharMap::to_bsearch_table` on the `BTreeMap`
iteration sequence. -/
def compact {V : Type} [DecidableEq V] : List (Nat × V) → Option (List (Range V))
  | [] => some []
  | (c, p) :: rest => compactAux c c p rest

/-- The loop of `CharMap::to_bsearch_table` acting directly on the output
string, as in the source: `out` accumulates `append_triple` lines, and the
final in-progress range is appended after the loop. -/
def tableAux {V : Type} [DecidableEq V] (display_fn : V → String) :
    String → Nat → Nat → V → List (Nat × V) → Option String
  | out, low, high, value, [] => some (append_triple out low high (display_fn value))
  | out, low, high, value, (c, p) :: rest =>
    if p ≠ value ∨ c > high + 1 then
      tableAux display_fn (append_triple out low high (display_fn value)) c c p rest
    else if c = high + 1 then
      tableAux display_fn out low c value rest
    else
      none

/-- Rust `CharMap::to_bsearch_table` for `BTreeMap<char, T>`; `none` models
the `assert_eq` panic. -/
def to_bsearch_table {V : Type} [DecidableEq V] (m : List (Nat × V))
    (display_fn : V → String) : Option String :=
  match m with
  | [] => some ("&[\n" ++ "]")
  | (c, p) :: rest => (tableAux display_fn "&[\n" c c p rest).map (fun out => out ++ "]")

/-- Rust `CharMap::to_bsearch_table_default`: formats each value with its
`Display` implementation, modelled as the function `display`. -/
def to_bsearch_table_default {V : Type} [DecidableEq V] (m : List (Nat × V))
    (display : V → String) : Option String :=
  to_bsearch_table m (fun t => display t)

end CharMap

namespace CharSet

/-- Rust `append_duple`: one output line of the set table. -/
def append_duple (out : String) (a b : Nat) : String :=
  out ++ "    (\x27" ++ escape_unicode a ++ "\x27, \x27" ++ escape_unicode b ++ "\x27),\n"

/-- The loop of `CharSet::to_bsearch_table`, abstracted to the sequence of
emitted ranges; `none` models the `assert_eq` panic. -/
def compactAux (low high : Nat) : List Nat → Option (List SRange)
  | [] => some [⟨low, high⟩]
  | c :: rest =>
    if c > high + 1 then
      (compactAux c c rest).map (fun rs => ⟨low, high⟩ :: rs)
    else if c = high + 1 then
      compactAux low c rest
    else
      none

/-- The ranges emitted by `CharSet::to_bsearch_table` on the `BTreeSet`
iteration sequence. -/
def compact : List Nat → Option (List SRange)
  | [] => some []
  | c :: rest => compactAux c c rest

/-- The loop of `CharSet::to_bsearch_table` acting directly on the output
string, as in the source. -/
def tableAux : String → Nat → Nat → List Nat → Option String
  | out, low, high, [] => some (append_duple out low high)
  | out, low, high, c :: rest =>
    if c > high + 1 then
      tableAux (append_duple out low high) c c rest
    else if c = high + 1 then
      tableAux out low c rest
    else
      none

/-- Rust `CharSet::to_bsearch_table` for `BTreeSet<char>`; `none` models the
`assert_eq` panic. -/
def to_bsearch_table (s : List Nat) : Option String :=
  match s with
  | [] => some ("&[\n" ++ "]")
  | c :: rest => (tableAux "&[\n" c c rest).map (fun out => out ++ "]")

end CharSet

/-- The ascending codepoint list `[low, low + 1, ..., low + n - 1]`. -/
def span (low : Nat) : Nat → List Nat
  | 0 => []
  | n + 1 => low :: span (low + 1) n

/-- The codepoints of a span, each paired with one value. -/
def spanPairs {V : Type} (low n : Nat) (v : V) : List (Nat × V) :=
  (span low n).map (fun c => (c, v))

/-- Expanding one emitted map range back into codepoint-value pairs. -/
def expandRange {V : Type} (r : Range V) : List (Nat × V) :=
  spanPairs r.low (r.high + 1 - r.low) r.value

/-- Expanding an emitted map range sequence back into codepoint-value pairs. -/
def expandRanges {V : Type} : List (Range V) → List (Nat × V)
  | [] => []
  | r :: rs => expandRange r ++ expandRanges rs

/-- Expanding one emitted set range back into its codepoints. -/
def expandSRange (r : SRange) : List Nat :=
  span r.low (r.high + 1 - r.low)

/-- Expanding an emitted set range sequence back into its codepoints. -/
def expandSRanges : List SRange → List Nat
  | [] => []
  | r :: rs => expandSRange r ++ expandSRanges rs

/-- The `BTreeMap` iteration guarantee: keys strictly ascending. -/
def StrictKeys {V : Type} (m : List (Nat × V)) : Prop :=
  List.Chain' (fun a b => a.1 < b.1) m

/-- The `BTreeSet` iteration guarantee: elements strictly ascending. -/
def StrictAsc (s : List Nat) : Prop :=
  List.Chain' (· < ·) s

/-- A structurally recursive decision procedure for `List.Chain'`, so that
concrete instances evaluate inside the kernel. -/
instance decChain' {α : Type} {R : α → α → Prop} [dR : DecidableRel R] :
    (l : List α) → Decidable (List.Chain' R l)
  | [] => isTrue List.chain'_nil
  | [_] => isTrue (List.chain'_singleton _)
  | a :: b :: t =>
    match dR a b, decChain' (b :: t) with
    | isTrue h1, isTrue h2 => isTrue (List.chain'_cons.2 ⟨h1, h2⟩)
    | isFalse h1, _ => isFalse fun hc => h1 (List.chain'_cons.1 hc).1
    | _, isFalse h2 => isFalse fun hc => h2 (List.chain'_cons.1 hc).2

instance {V : Type} (m : List (Nat × V)) : Decidable (StrictKeys m) :=
  decChain' m

instance (s : List Nat) : Decidable (StrictAsc s) :=
  decChain' s

/-- Rendering a range sequence by folding `append_triple` over it, as the
map-variant loop does. -/
def renderRanges {V : Type} (display_fn : V → String) : String → List (Range V) → String
  | out, [] => out
  | out, r :: rs =>
    renderRanges display_fn (CharMap.append_triple out r.low r.high (display_fn r.value)) rs

/-- Rendering a set range sequence by folding `append_duple` over it. -/
def renderSRanges : String → List SRange → String
  | out, [] => out
  | out, r :: rs => renderSRanges (CharSet.append_duple out r.low r.high) rs

/-- A character is a lowercase hexadecimal digit: a decimal digit or one of
the lowercase letters from `a` to `f`. -/
def isLowerHex (ch : Char) : Prop :=
  (48 ≤ ch.toNat ∧ ch.toNat ≤ 57) ∨ (97 ≤ ch.toNat ∧ ch.toNat ≤ 102)

instance (ch : Char) : Decidable (isLowerHex ch) :=
  inferInstanceAs
    (Decidable ((48 ≤ ch.toNat ∧ ch.toNat ≤ 57) ∨ (97 ≤ ch.toNat ∧ ch.toNat ≤ 102)))

/-- The number of adjacent entry pairs of a map input that cannot lie in one
range: the second codepoint is not the successor of the first, or the values
differ.  Any range decomposition needs at least `breaks m + 1` ranges. -/
def breaks {V : Type} [DecidableEq V] : List (Nat × V) → Nat
  | [] => 0
  | [_] => 0
  | x :: y :: t => (if y.1 = x.1 + 1 ∧ y.2 = x.2 then 0 else 1) + breaks (y :: t)

/-- The number of adjacent codepoint pairs of a set input that cannot lie in
one range: the second is not the successor of the first. -/
def breaksS : List Nat → Nat
  | [] => 0
  | [_] => 0
  | x :: y :: t => (if y = x + 1 then 0 else 1) + breaksS (y :: t)

theorem span_succ (low n : Nat) : span low (n + 1) = span low n ++ [low + n] := by
  induction n generalizing low with
  | zero => simp [span]
  | succ n ih =>
    have h1 : span low (n + 2) = low :: span (low + 1) (n + 1) := rfl
    have h2 : span low (n + 1) = low :: span (low + 1) n := rfl
    rw [h1, ih (low + 1), h2]
    simp [Nat.add_assoc, Nat.add_comm 1 n]

theorem mem_span {c low n : Nat} : c ∈ span low n ↔ low ≤ c ∧ c < low + n := by
  induction n generalizing low with
  | zero =>
    simp only [span, List.not_mem_nil, false_iff]
    omega
  | succ n ih =>
    simp only [span, List.mem_cons, ih]
    omega

theorem spanPairs_succ {V : Type} (low n : Nat) (v : V) :
    spanPairs low (n + 1) v = spanPairs low n v ++ [(low + n, v)] := by
  simp [spanPairs, span_succ]

theorem spanPairs_one {V : Type} (low : Nat) (v : V) : spanPairs low 1 v = [(low, v)] := rfl

theorem mem_spanPairs {V : Type} {c : Nat} {w : V} {low n : Nat} {v : V} :
    (c, w) ∈ spanPairs low n v ↔ low ≤ c ∧ c < low + n ∧ w = v := by
  simp only [spanPairs, List.mem_map, Prod.mk.injEq]
  constructor
  · rintro ⟨a, ha, rfl, rfl⟩
    exact ⟨(mem_span.1 ha).1, (mem_span.1 ha).2, rfl⟩
  · rintro ⟨h1, h2, rfl⟩
    exact ⟨c, mem_span.2 ⟨h1, h2⟩, rfl, rfl⟩

theorem compactMapAux_spec {V : Type} [DecidableEq V] :
    ∀ (rest : List (Nat × V)) (low high : Nat) (value : V),
      low ≤ high → StrictKeys rest → (∀ q ∈ rest.head?, high < q.1) →
      ∃ r0 rs, CharMap.compactAux low high value rest = some (r0 :: rs) ∧
        expandRanges (r0 :: rs) = spanPairs low (high + 1 - low) value ++ rest ∧
        r0.low = low ∧ r0.value = value ∧
        List.Chain'
          (fun r1 r2 => r1.high < r2.low ∧ (r1.high + 1 < r2.low ∨ r1.value ≠ r2.value))
          (r0 :: rs) := by
  intro rest
  induction rest with
  | nil =>
    intro low high value hlh _ _
    refine ⟨⟨low, high, value⟩, [], rfl, ?_, rfl, rfl, List.chain'_singleton _⟩
    simp [expandRanges, expandRange]
  | cons e rest ih =>
    obtain ⟨c, p⟩ := e
    intro low high value hlh hchain hhead
    have hc : high < c := hhead (c, p) rfl
    have hchain' : List.Chain' (fun a b => a.1 < b.1) ((c, p) :: rest) := hchain
    obtain ⟨hhead', hrest⟩ := List.chain'_cons'.1 hchain'
    by_cases hcond : p ≠ value ∨ c > high + 1
    · have hstep : CharMap.compactAux low high value ((c, p) :: rest) =
          (CharMap.compactAux c c p rest).map (fun rs => ⟨low, high, value⟩ :: rs) := by
        simp only [CharMap.compactAux]
        rw [if_pos hcond]
      obtain ⟨r0, rs, heq, hexp, hlow, hval, hch⟩ := ih c c p le_rfl hrest hhead'
      refine ⟨⟨low, high, value⟩, r0 :: rs, ?_, ?_, rfl, rfl, ?_⟩
      · rw [hstep, heq]
        rfl
      · show expandRange ⟨low, high, value⟩ ++ expandRanges (r0 :: rs) = _
        rw [hexp]
        show spanPairs low (high + 1 - low) value ++
          (spanPairs c (c + 1 - c) p ++ rest) = _
        rw [Nat.add_sub_cancel_left, spanPairs_one, ← List.append_assoc]
        simp
      · refine List.chain'_cons.2 ⟨?_, hch⟩
        refine ⟨by rw [hlow]; exact hc, ?_⟩
        rcases hcond with hne | hgt
        · exact Or.inr (by rw [hval]; exact fun h => hne h.symm)
        · exact Or.inl (by rw [hlow]; exact hgt)
    · have hcond' := hcond
      push_neg at hcond'
      obtain ⟨hpv, hle⟩ := hcond'
      have hceq : c = high + 1 := by omega
      have hstep : CharMap.compactAux low high value ((c, p) :: rest) =
          CharMap.compactAux low c value rest := by
        simp only [CharMap.compactAux]
        rw [if_neg hcond, if_pos hceq]
      obtain ⟨r0, rs, heq, hexp, hlow, hval, hch⟩ := ih low c value (by omega) hrest
        (by intro q hq; have := hhead' q hq; omega)
      refine ⟨r0, rs, by rw [hstep]; exact heq, ?_, hlow, hval, hch⟩
      rw [hexp]
      subst hpv
      subst hceq
      have hsub : high + 1 + 1 - low = (high + 1 - low) + 1 := by omega
      rw [hsub, spanPairs_succ]
      have hlast : low + (high + 1 - low) = high + 1 := by omega
      rw [hlast, List.append_assoc]
      simp

theorem compactSetAux_spec :
    ∀ (rest : List Nat) (low high : Nat),
      low ≤ high → StrictAsc rest → (∀ q ∈ rest.head?, high < q) →
      ∃ r0 rs, CharSet.compactAux low high rest = some (r0 :: rs) ∧
        expandSRanges (r0 :: rs) = span low (high + 1 - low) ++ rest ∧
        r0.low = low ∧
        List.Chain' (fun r1 r2 => r1.high + 1 < r2.low) (r0 :: rs) := by
  intro rest
  induction rest with
  | nil =>
    intro low high hlh _ _
    refine ⟨⟨low, high⟩, [], rfl, ?_, rfl, List.chain'_singleton _⟩
    simp [expandSRanges, expandSRange]
  | cons c rest ih =>
    intro low high hlh hchain hhead
    have hc : high < c := hhead c rfl
    have hchain' : List.Chain' (· < ·) (c :: rest) := hchain
    obtain ⟨hhead', hrest⟩ := List.chain'_cons'.1 hchain'
    by_cases hcond : c > high + 1
    · have hstep : CharSet.compactAux low high (c :: rest) =
          (CharSet.compactAux c c rest).map (fun rs => ⟨low, high⟩ :: rs) := by
        simp only [CharSet.compactAux]
        rw [if_pos hcond]
      obtain ⟨r0, rs, heq, hexp, hlow, hch⟩ := ih c c le_rfl hrest hhead'
      refine ⟨⟨low, high⟩, r0 :: rs, ?_, ?_, rfl, ?_⟩
      · rw [hstep, heq]
        rfl
      · show expandSRange ⟨low, high⟩ ++ expandSRanges (r0 :: rs) = _
        rw [hexp]
        show span low (high + 1 - low) ++ (span c (c + 1 - c) ++ rest) = _
        rw [Nat.add_sub_cancel_left, ← List.append_assoc]
        simp [span]
      · exact List.chain'_cons.2 ⟨by rw [hlow]; exact hcond, hch⟩
    · have hceq : c = high + 1 := by omega
      have hstep : CharSet.compactAux low high (c :: rest) =
          CharSet.compactAux low c rest := by
        simp only [CharSet.compactAux]
        rw [if_neg hcond, if_pos hceq]
      obtain ⟨r0, rs, heq, hexp, hlow, hch⟩ := ih low c (by omega) hrest
        (by intro q hq; have := hhead' q hq; omega)
      refine ⟨r0, rs, by rw [hstep]; exact heq, ?_, hlow, hch⟩
      rw [hexp]
      subst hceq
      have hsub : high + 1 + 1 - low = (high + 1 - low) + 1 := by omega
      rw [hsub, span_succ]
      have hlast : low + (high + 1 - low) = high + 1 := by omega
      rw [hlast, List.append_assoc]
      simp

theorem mapTableAux_eq {V : Type} [DecidableEq V] (display_fn : V → String) :
    ∀ (rest : List (Nat × V)) (out : String) (low high : Nat) (value : V),
      CharMap.tableAux display_fn out low high value rest =
        (CharMap.compactAux low high value rest).map (renderRanges display_fn out) := by
  intro rest
  induction rest with
  | nil =>
    intro out low high value
    rfl
  | cons e rest ih =>
    obtain ⟨c, p⟩ := e
    intro out low high value
    by_cases hcond : p ≠ value ∨ c > high + 1
    · have h1 : CharMap.tableAux display_fn out low high value ((c, p) :: rest) =
          CharMap.tableAux display_fn
            (CharMap.append_triple out low high (display_fn value)) c c p rest := by
        simp only [CharMap.tableAux]
        rw [if_pos hcond]
      have h2 : CharMap.compactAux low high value ((c, p) :: rest) =
          (CharMap.compactAux c c p rest).map (fun rs => ⟨low, high, value⟩ :: rs) := by
        simp only [CharMap.compactAux]
        rw [if_pos hcond]
      rw [h1, h2, ih, Option.map_map]
      cases CharMap.compactAux c c p rest <;> rfl
    · by_cases hceq : c = high + 1
      · have h1 : CharMap.tableAux display_fn out low high value ((c, p) :: rest) =
            CharMap.tableAux display_fn out low c value rest := by
          simp only [CharMap.tableAux]
          rw [if_neg hcond, if_pos hceq]
        have h2 : CharMap.compactAux low high value ((c, p) :: rest) =
            CharMap.compactAux low c value rest := by
          simp only [CharMap.compactAux]
          rw [if_neg hcond, if_pos hceq]
        rw [h1, h2, ih]
      · have h1 : CharMap.tableAux display_fn out low high value ((c, p) :: rest) = none := by
          simp only [CharMap.tableAux]
          rw [if_neg hcond, if_neg hceq]
        have h2 : CharMap.compactAux low high value ((c, p) :: rest) =
            (none : Option (List (Range V))) := by
          simp only [CharMap.compactAux]
          rw [if_neg hcond, if_neg hceq]
        rw [h1, h2]
        rfl

theorem setTableAux_eq :
    ∀ (rest : List Nat) (out : String) (low high : Nat),
      CharSet.tableAux out low high rest =
        (CharSet.compactAux low high rest).map (renderSRanges out) := by
  intro rest
  induction rest with
  | nil =>
    intro out low high
    rfl
  | cons c rest ih =>
    intro out low high
    by_cases hcond : c > high + 1
    · have h1 : CharSet.tableAux out low high (c :: rest) =
          CharSet.tableAux (CharSet.append_duple out low high) c c rest := by
        simp only [CharSet.tableAux]
        rw [if_pos hcond]
      have h2 : CharSet.compactAux low high (c :: rest) =
          (CharSet.compactAux c c rest).map (fun rs => ⟨low, high⟩ :: rs) := by
        simp only [CharSet.compactAux]
        rw [if_pos hcond]
      rw [h1, h2, ih, Option.map_map]
      cases CharSet.compactAux c c rest <;> rfl
    · by_cases hceq : c = high + 1
      · have h1 : CharSet.tableAux out low high (c :: rest) =
            CharSet.tableAux out low c rest := by
          simp only [CharSet.tableAux]
          rw [if_neg hcond, if_pos hceq]
        have h2 : CharSet.compactAux low high (c :: rest) =
            CharSet.compactAux low c rest := by
          simp only [CharSet.compactAux]
          rw [if_neg hcond, if_pos hceq]
        rw [h1, h2, ih]
      · have h1 : CharSet.tableAux out low high (c :: rest) = none := by
          simp only [CharSet.tableAux]
          rw [if_neg hcond, if_neg hceq]
        have h2 : CharSet.compactAux low high (c :: rest) = (none : Option (List SRange)) := by
          simp only [CharSet.compactAux]
          rw [if_neg hcond, if_neg hceq]
        rw [h1, h2]
        rfl

theorem mapTable_eq {V : Type} [DecidableEq V] (m : List (Nat × V)) (display_fn : V → String) :
    CharMap.to_bsearch_table m display_fn =
      (CharMap.compact m).map (fun rs => renderRanges display_fn "&[\n" rs ++ "]") := by
  cases m with
  | nil => rfl
  | cons e rest =>
    obtain ⟨c, p⟩ := e
    show (CharMap.tableAux display_fn "&[\n" c c p rest).map (fun out => out ++ "]") = _
    rw [mapTableAux_eq, Option.map_map]
    simp only [CharMap.compact]
    cases CharMap.compactAux c c p rest <;> rfl

theorem setTable_eq (s : List Nat) :
    CharSet.to_bsearch_table s =
      (CharSet.compact s).map (fun rs => renderSRanges "&[\n" rs ++ "]") := by
  cases s with
  | nil => rfl
  | cons c rest =>
    show (CharSet.tableAux "&[\n" c c rest).map (fun out => out ++ "]") = _
    rw [setTableAux_eq, Option.map_map]
    simp only [CharSet.compact]
    cases CharSet.compactAux c c rest <;> rfl

theorem compactMap_spec {V : Type} [DecidableEq V] (m : List (Nat × V)) (hm : StrictKeys m) :
    ∃ rs, CharMap.compact m = some rs ∧ expandRanges rs = m ∧
      List.Chain'
        (fun r1 r2 => r1.high < r2.low ∧ (r1.high + 1 < r2.low ∨ r1.value ≠ r2.value)) rs := by
  cases m with
  | nil => exact ⟨[], rfl, rfl, List.chain'_nil⟩
  | cons e rest =>
    obtain ⟨c, p⟩ := e
    have hm' : List.Chain' (fun a b : Nat × V => a.1 < b.1) ((c, p) :: rest) := hm
    obtain ⟨hhead, hrest⟩ := List.chain'_cons'.1 hm'
    obtain ⟨r0, rs, heq, hexp, _, _, hch⟩ := compactMapAux_spec rest c c p le_rfl hrest hhead
    refine ⟨r0 :: rs, heq, ?_, hch⟩
    rw [hexp, Nat.add_sub_cancel_left, spanPairs_one]
    rfl

theorem compactSet_spec (s : List Nat) (hs : StrictAsc s) :
    ∃ rs, CharSet.compact s = some rs ∧ expandSRanges rs = s ∧
      List.Chain' (fun r1 r2 => r1.high + 1 < r2.low) rs := by
  cases s with
  | nil => exact ⟨[], rfl, rfl, List.chain'_nil⟩
  | cons c rest =>
    have hs' : List.Chain' (· < ·) (c :: rest) := hs
    obtain ⟨hhead, hrest⟩ := List.chain'_cons'.1 hs'
    obtain ⟨r0, rs, heq, hexp, _, hch⟩ := compactSetAux_spec rest c c le_rfl hrest hhead
    refine ⟨r0 :: rs, heq, ?_, hch⟩
    rw [hexp, Nat.add_sub_cancel_left]
    rfl

theorem hexDigitsCore_ne_nil (fuel n : Nat) : hexDigitsCore fuel n ≠ [] := by
  cases fuel with
  | zero => simp [hexDigitsCore]
  | succ fuel =>
    simp only [hexDigitsCore]
    split
    · simp
    · simp

theorem hexDigitsCore_lt16 (fuel : Nat) : ∀ n d, d ∈ hexDigitsCore fuel n → d < 16 := by
  induction fuel with
  | zero =>
    intro n d hd
    simp only [hexDigitsCore, List.mem_singleton] at hd
    subst hd
    exact Nat.mod_lt _ (by omega)
  | succ fuel ih =>
    intro n d hd
    simp only [hexDigitsCore] at hd
    by_cases h : n < 16
    · rw [if_pos h] at hd
      simp only [List.mem_singleton] at hd
      omega
    · rw [if_neg h] at hd
      rcases List.mem_append.1 hd with h1 | h2
      · exact ih _ _ h1
      · simp only [List.mem_singleton] at h2
        subst h2
        exact Nat.mod_lt _ (by omega)

theorem hexDigitsCore_head_ne_zero (fuel : Nat) :
    ∀ n, n ≤ fuel → 0 < n → ∀ d ∈ (hexDigitsCore fuel n).head?, d ≠ 0 := by
  induction fuel with
  | zero =>
    intro n hn h0
    omega
  | succ fuel ih =>
    intro n hn h0 d hd
    simp only [hexDigitsCore] at hd
    by_cases h : n < 16
    · rw [if_pos h] at hd
      simp only [List.head?_cons, Option.mem_def, Option.some.injEq] at hd
      omega
    · rw [if_neg h] at hd
      obtain ⟨x, xs, hxs⟩ := List.exists_cons_of_ne_nil (hexDigitsCore_ne_nil fuel (n / 16))
      rw [hxs, List.cons_append, List.head?_cons] at hd
      simp only [Option.mem_def, Option.some.injEq] at hd
      have hx : x ∈ (hexDigitsCore fuel (n / 16)).head? := by
        rw [hxs, List.head?_cons]
        rfl
      have hne := ih (n / 16) (by omega) (by omega) x hx
      omega

theorem mem_expandRanges {V : Type} {rs : List (Range V)} {r : Range V} {q : Nat × V}
    (hr : r ∈ rs) (hq : q ∈ expandRange r) : q ∈ expandRanges rs := by
  induction rs with
  | nil => cases hr
  | cons r0 rs ih =>
    rcases List.mem_cons.1 hr with h | h
    · subst h
      exact List.mem_append.2 (Or.inl hq)
    · exact List.mem_append.2 (Or.inr (ih h))

theorem breaks_cons_le {V : Type} [DecidableEq V] (x : Nat × V) (l : List (Nat × V)) :
    breaks (x :: l) ≤ 1 + breaks l := by
  cases l with
  | nil => simp [breaks]
  | cons y t =>
    simp only [breaks]
    split
    · omega
    · omega

theorem breaks_append_le {V : Type} [DecidableEq V] :
    ∀ (xs ys : List (Nat × V)), breaks (xs ++ ys) ≤ breaks xs + breaks ys + 1 := by
  intro xs
  induction xs with
  | nil =>
    intro ys
    simp [breaks]
  | cons x xs ih =>
    intro ys
    cases xs with
    | nil =>
      have h := breaks_cons_le x ys
      have h1 : breaks [x] = 0 := rfl
      rw [List.singleton_append, h1]
      omega
    | cons x2 xs' =>
      have ih' := ih ys
      rw [List.cons_append] at ih' ⊢
      by_cases hc : x2.1 = x.1 + 1 ∧ x2.2 = x.2
      · simp only [breaks, List.cons_append, List.append_eq, if_pos hc] at ih' ⊢
        omega
      · simp only [breaks, List.cons_append, List.append_eq, if_neg hc] at ih' ⊢
        omega

theorem breaks_spanPairs {V : Type} [DecidableEq V] (v : V) :
    ∀ (n low : Nat), breaks (spanPairs low n v) = 0 := by
  intro n
  induction n with
  | zero =>
    intro low
    rfl
  | succ n ih =>
    intro low
    cases n with
    | zero => rfl
    | succ k =>
      have hu : spanPairs low (k + 2) v =
          (low, v) :: (low + 1, v) :: spanPairs (low + 2) k v := rfl
      have hu' : spanPairs (low + 1) (k + 1) v =
          (low + 1, v) :: spanPairs (low + 2) k v := rfl
      rw [hu]
      simp only [breaks, and_self, if_true]
      have := ih (low + 1)
      rw [hu'] at this
      omega

theorem breaks_expandRanges_le {V : Type} [DecidableEq V] :
    ∀ (rs2 : List (Range V)), expandRanges rs2 ≠ [] →
      breaks (expandRanges rs2) + 1 ≤ rs2.length := by
  intro rs2
  induction rs2 with
  | nil =>
    intro h
    exact absurd rfl h
  | cons r rs2 ih =>
    intro _
    show breaks (expandRange r ++ expandRanges rs2) + 1 ≤ rs2.length + 1
    by_cases h2 : expandRanges rs2 = []
    · rw [h2, List.append_nil, expandRange, breaks_spanPairs]
      omega
    · have hle := breaks_append_le (expandRange r) (expandRanges rs2)
      have hr0 : breaks (expandRange r) = 0 := by
        rw [expandRange]
        exact breaks_spanPairs _ _ _
      have hrec := ih h2
      omega

theorem breaksS_cons_le (x : Nat) (l : List Nat) : breaksS (x :: l) ≤ 1 + breaksS l := by
  cases l with
  | nil => simp [breaksS]
  | cons y t =>
    simp only [breaksS]
    split
    · omega
    · omega

theorem breaksS_append_le :
    ∀ (xs ys : List Nat), breaksS (xs ++ ys) ≤ breaksS xs + breaksS ys + 1 := by
  intro xs
  induction xs with
  | nil =>
    intro ys
    simp [breaksS]
  | cons x xs ih =>
    intro ys
    cases xs with
    | nil =>
      have h := breaksS_cons_le x ys
      have h1 : breaksS [x] = 0 := rfl
      rw [List.singleton_append, h1]
      omega
    | cons x2 xs' =>
      have ih' := ih ys
      rw [List.cons_append] at ih' ⊢
      by_cases hc : x2 = x + 1
      · simp only [breaksS, List.cons_append, List.append_eq, if_pos hc] at ih' ⊢
        omega
      · simp only [breaksS, List.cons_append, List.append_eq, if_neg hc] at ih' ⊢
        omega

theorem breaksS_span : ∀ (n low : Nat), breaksS (span low n) = 0 := by
  intro n
  induction n with
  | zero =>
    intro low
    rfl
  | succ n ih =>
    intro low
    cases n with
    | zero => rfl
    | succ k =>
      have hu : span low (k + 2) = low :: (low + 1) :: span (low + 2) k := rfl
      have hu' : span (low + 1) (k + 1) = (low + 1) :: span (low + 2) k := rfl
      rw [hu]
      simp only [breaksS, if_true]
      have := ih (low + 1)
      rw [hu'] at this
      omega

theorem breaksS_expandSRanges_le :
    ∀ (ds2 : List SRange), expandSRanges ds2 ≠ [] →
      breaksS (expandSRanges ds2) + 1 ≤ ds2.length := by
  intro ds2
  induction ds2 with
  | nil =>
    intro h
    exact absurd rfl h
  | cons r ds2 ih =>
    intro _
    show breaksS (expandSRange r ++ expandSRanges ds2) + 1 ≤ ds2.length + 1
    by_cases h2 : expandSRanges ds2 = []
    · rw [h2, List.append_nil, expandSRange, breaksS_span]
      omega
    · have hle := breaksS_append_le (expandSRange r) (expandSRanges ds2)
      have hr0 : breaksS (expandSRange r) = 0 := by
        rw [expandSRange]
        exact breaksS_span _ _
      have hrec := ih h2
      omega

theorem compactMapAux_length {V : Type} [DecidableEq V] :
    ∀ (rest : List (Nat × V)) (low high : Nat) (value : V) (rs : List (Range V)),
      StrictKeys rest → (∀ q ∈ rest.head?, high < q.1) →
      CharMap.compactAux low high value rest = some rs →
      rs.length = breaks ((high, value) :: rest) + 1 := by
  intro rest
  induction rest with
  | nil =>
    intro low high value rs _ _ heq
    obtain rfl : rs = [⟨low, high, value⟩] := (Option.some.inj heq).symm
    rfl
  | cons e rest ih =>
    obtain ⟨c, p⟩ := e
    intro low high value rs hchain hhead heq
    have hc : high < c := hhead (c, p) rfl
    have hchain' : List.Chain' (fun a b : Nat × V => a.1 < b.1) ((c, p) :: rest) := hchain
    obtain ⟨hhead', hrest⟩ := List.chain'_cons'.1 hchain'
    by_cases hcond : p ≠ value ∨ c > high + 1
    · rw [show CharMap.compactAux low high value ((c, p) :: rest) =
          (CharMap.compactAux c c p rest).map (fun rs => ⟨low, high, value⟩ :: rs) from by
        simp only [CharMap.compactAux]
        rw [if_pos hcond]] at heq
      cases hrec : CharMap.compactAux c c p rest with
      | none =>
        rw [hrec] at heq
        cases heq
      | some rs' =>
        rw [hrec] at heq
        obtain rfl : rs = ⟨low, high, value⟩ :: rs' := (Option.some.inj heq).symm
        have hlen := ih c c p rs' hrest hhead' hrec
        have hnc : ¬(c = high + 1 ∧ p = value) := by
          rintro ⟨h1, h2⟩
          rcases hcond with hne | hgt
          · exact hne h2
          · omega
        show rs'.length + 1 = breaks ((high, value) :: (c, p) :: rest) + 1
        simp only [breaks, if_neg hnc]
        omega
    · have hcond' := hcond
      push_neg at hcond'
      obtain ⟨hpv, hle⟩ := hcond'
      have hceq : c = high + 1 := by omega
      rw [show CharMap.compactAux low high value ((c, p) :: rest) =
          CharMap.compactAux low c value rest from by
        simp only [CharMap.compactAux]
        rw [if_neg hcond, if_pos hceq]] at heq
      have hlen := ih low c value rs hrest
        (by intro q hq; have := hhead' q hq; omega) heq
      have hyc : c = high + 1 ∧ p = value := ⟨hceq, hpv⟩
      show rs.length = breaks ((high, value) :: (c, p) :: rest) + 1
      simp only [breaks, if_pos hyc]
      rw [hpv]
      omega

theorem compactSetAux_length :
    ∀ (rest : List Nat) (low high : Nat) (rs : List SRange),
      StrictAsc rest → (∀ q ∈ rest.head?, high < q) →
      CharSet.compactAux low high rest = some rs →
      rs.length = breaksS (high :: rest) + 1 := by
  intro rest
  induction rest with
  | nil =>
    intro low high rs _ _ heq
    obtain rfl : rs = [⟨low, high⟩] := (Option.some.inj heq).symm
    rfl
  | cons c rest ih =>
    intro low high rs hchain hhead heq
    have hc : high < c := hhead c rfl
    have hchain' : List.Chain' (· < ·) (c :: rest) := hchain
    obtain ⟨hhead', hrest⟩ := List.chain'_cons'.1 hchain'
    by_cases hcond : c > high + 1
    · rw [show CharSet.compactAux low high (c :: rest) =
          (CharSet.compactAux c c rest).map (fun rs => ⟨low, high⟩ :: rs) from by
        simp only [CharSet.compactAux]
        rw [if_pos hcond]] at heq
      cases hrec : CharSet.compactAux c c rest with
      | none =>
        rw [hrec] at heq
        cases heq
      | some rs' =>
        rw [hrec] at heq
        obtain rfl : rs = ⟨low, high⟩ :: rs' := (Option.some.inj heq).symm
        have hlen := ih c c rs' hrest hhead' hrec
        have hnc : ¬(c = high + 1) := by omega
        show rs'.length + 1 = breaksS (high :: c :: rest) + 1
        simp only [breaksS, if_neg hnc]
        omega
    · have hceq : c = high + 1 := by omega
      rw [show CharSet.compactAux low high (c :: rest) =
          CharSet.compactAux low c rest from by
        simp only [CharSet.compactAux]
        rw [if_neg hcond, if_pos hceq]] at heq
      have hlen := ih low c rs hrest
        (by intro q hq; have := hhead' q hq; omega) heq
      show rs.length = breaksS (high :: c :: rest) + 1
      simp only [breaksS, if_pos hceq]
      omega

/-- Claim C1: round-trip — for every strictly ascending codepoint-to-value
association (map variant) and every strictly ascending codepoint list (set
variant), expanding each emitted range back into the individual
codepoint-value pairs (respectively codepoints) in `[low, high]`, in range
order, reconstructs the original input exactly and in the same order. -/
theorem c1_round_trip {V : Type} [DecidableEq V] (m : List (Nat × V)) (s : List Nat)
    (hm : StrictKeys m) (hs : StrictAsc s) :
    (∃ rs, CharMap.compact m = some rs ∧ expandRanges rs = m) ∧
    (∃ ds, CharSet.compact s = some ds ∧ expandSRanges ds = s) := by
  obtain ⟨rs, h1, h2, _⟩ := compactMap_spec m hm
  obtain ⟨ds, h3, h4, _⟩ := compactSet_spec s hs
  exact ⟨⟨rs, h1, h2⟩, ⟨ds, h3, h4⟩⟩

/-- Witness for C1 at a concrete input. -/
theorem c1_round_trip_witness :
    StrictKeys [(97, 0), (98, 0), (100, 1)] ∧ StrictAsc [5, 6, 9] ∧
      ((∃ rs, CharMap.compact [(97, 0), (98, 0), (100, 1)] = some rs ∧
          expandRanges rs = [(97, 0), (98, 0), (100, 1)]) ∧
        (∃ ds, CharSet.compact [5, 6, 9] = some ds ∧ expandSRanges ds = [5, 6, 9])) :=
  ⟨by decide, by decide,
    c1_round_trip [(97, 0), (98, 0), (100, 1)] [5, 6, 9] (by decide) (by decide)⟩

/-- Claim C2 counterexample: the map variant, presented at position 1 with
codepoint 97 that is not strictly greater than the current high 97 but with
a different value, does not panic — it emits a table, refuting the claim
that both variants abort on every such input. -/
theorem c2_counterexample :
    CharMap.compact [(97, 0), (97, 1)] = some [⟨97, 97, 0⟩, ⟨97, 97, 1⟩] ∧
    CharMap.to_bsearch_table [(97, 0), (97, 1)] (fun _ => "v") ≠ none := by
  constructor
  · decide
  · decide

/-- Claim C2 amended: when an entry codepoint `c` is not strictly greater
than the current high, the set variant always panics; the map variant panics
exactly when the entry value equals the current value, and with a differing
value it instead emits the current range and opens a new one, no panic. -/
theorem c2_abort_amended {V : Type} [DecidableEq V] (low high c : Nat) (value p : V)
    (restM : List (Nat × V)) (restS : List Nat) (h : c ≤ high) :
    CharSet.compactAux low high (c :: restS) = none ∧
    (p = value → CharMap.compactAux low high value ((c, p) :: restM) = none) ∧
    (p ≠ value → CharMap.compactAux low high value ((c, p) :: restM) =
      (CharMap.compactAux c c p restM).map (fun rs => ⟨low, high, value⟩ :: rs)) := by
  refine ⟨?_, ?_, ?_⟩
  · simp only [CharSet.compactAux]
    rw [if_neg (by omega), if_neg (by omega)]
  · intro hpv
    have hcond : ¬(p ≠ value ∨ c > high + 1) := by
      push_neg
      exact ⟨hpv, by omega⟩
    simp only [CharMap.compactAux]
    rw [if_neg hcond, if_neg (by omega : ¬c = high + 1)]
  · intro hpv
    simp only [CharMap.compactAux]
    rw [if_pos (Or.inl hpv)]

/-- Witness for the amended C2 at a concrete input. -/
theorem c2_abort_amended_witness :
    (3 : Nat) ≤ 5 ∧
      (CharSet.compactAux 1 5 [3] = none ∧
        ((0 : Nat) = 0 → CharMap.compactAux 1 5 (0 : Nat) [(3, 0)] = none) ∧
        ((0 : Nat) ≠ 0 → CharMap.compactAux 1 5 (0 : Nat) [(3, 0)] =
          (CharMap.compactAux 3 3 (0 : Nat) []).map (fun rs => ⟨1, 5, 0⟩ :: rs))) :=
  ⟨by decide, c2_abort_amended 1 5 3 0 0 [] [] (by decide)⟩

/-- Claim C3 counterexample: the empty association and the empty set do not
render as the bracket pair with nothing between the brackets. -/
theorem c3_counterexample :
    CharMap.to_bsearch_table ([] : List (Nat × Nat)) (fun _ => "") ≠ some "&[]" ∧
    CharSet.to_bsearch_table [] ≠ some "&[]" := by
  constructor
  · decide
  · decide

/-- Claim C3 amended: the empty association (under any formatter) and the
empty set render as the bracket pair with a newline between the brackets. -/
theorem c3_empty_render_amended {V : Type} [DecidableEq V] (display_fn : V → String) :
    CharMap.to_bsearch_table ([] : List (Nat × V)) display_fn = some "&[\n]" ∧
    CharSet.to_bsearch_table [] = some "&[\n]" := by
  constructor
  · show some ("&[\n" ++ "]") = some "&[\n]"
    rfl
  · show some ("&[\n" ++ "]") = some "&[\n]"
    rfl

/-- Claim C4 counterexample: in the map variant, two adjacent codepoints with
distinct values compact to two consecutive ranges with no gap — the low of
the second range exceeds the high of the first by exactly one. -/
theorem c4_counterexample :
    CharMap.compact [(97, 0), (98, 1)] = some [⟨97, 97, 0⟩, ⟨98, 98, 1⟩] ∧
    ¬ List.Chain' (fun r1 r2 => r1.high + 1 < r2.low)
      [Range.mk 97 97 (0 : Nat), Range.mk 98 98 1] := by
  constructor
  · decide
  · decide

/-- Claim C4 amended: consecutive emitted ranges are strictly ordered with
high(i) < low(i+1) in both variants; the separation exceeds one codepoint
always in the set variant, and in the map variant whenever the two ranges
carry equal values (a value change may sit directly at the boundary). -/
theorem c4_range_order_amended {V : Type} [DecidableEq V] (m : List (Nat × V)) (s : List Nat)
    (rsm : List (Range V)) (rss : List SRange) (hm : StrictKeys m) (hs : StrictAsc s)
    (hcm : CharMap.compact m = some rsm) (hcs : CharSet.compact s = some rss) :
    List.Chain'
      (fun r1 r2 => r1.high < r2.low ∧ (r1.value = r2.value → r1.high + 1 < r2.low)) rsm ∧
    List.Chain' (fun r1 r2 => r1.high + 1 < r2.low) rss := by
  obtain ⟨rs, h1, _, hch⟩ := compactMap_spec m hm
  obtain ⟨ds, h3, _, hch'⟩ := compactSet_spec s hs
  rw [hcm] at h1
  rw [hcs] at h3
  obtain rfl : rsm = rs := Option.some.inj h1
  obtain rfl : rss = ds := Option.some.inj h3
  refine ⟨hch.imp ?_, hch'⟩
  rintro r1 r2 ⟨hlt, hor⟩
  exact ⟨hlt, fun heq => hor.resolve_right (fun hne => hne heq)⟩

/-- Witness for the amended C4 at a concrete input. -/
theorem c4_range_order_amended_witness :
    StrictKeys [(97, 0), (98, 1)] ∧ StrictAsc [1, 5] ∧
      CharMap.compact [(97, 0), (98, 1)] = some [⟨97, 97, 0⟩, ⟨98, 98, 1⟩] ∧
      CharSet.compact [1, 5] = some [⟨1, 1⟩, ⟨5, 5⟩] ∧
      (List.Chain'
          (fun r1 r2 : Range Nat => r1.high < r2.low ∧ (r1.value = r2.value → r1.high + 1 < r2.low))
          [⟨97, 97, 0⟩, ⟨98, 98, 1⟩] ∧
        List.Chain' (fun r1 r2 : SRange => r1.high + 1 < r2.low) [⟨1, 1⟩, ⟨5, 5⟩]) :=
  ⟨by decide, by decide, by decide, by decide,
    c4_range_order_amended [(97, 0), (98, 1)] [1, 5] [⟨97, 97, 0⟩, ⟨98, 98, 1⟩]
      [⟨1, 1⟩, ⟨5, 5⟩] (by decide) (by decide) (by decide) (by decide)⟩

/-- Claim C5: minimality — no two adjacent emitted ranges can be merged:
for every pair of consecutive emitted ranges, either there is a gap
(low(i+1) > high(i) + 1) or, in the map variant, the two ranges carry
unequal values; equivalently, no range decomposition that expands back to
the same input uses fewer ranges than the emitted one. -/
theorem c5_minimality {V : Type} [DecidableEq V] (m : List (Nat × V)) (s : List Nat)
    (rsm : List (Range V)) (rss : List SRange) (hm : StrictKeys m) (hs : StrictAsc s)
    (hcm : CharMap.compact m = some rsm) (hcs : CharSet.compact s = some rss) :
    List.Chain' (fun r1 r2 => r1.high + 1 < r2.low ∨ r1.value ≠ r2.value) rsm ∧
    List.Chain' (fun r1 r2 => r1.high + 1 < r2.low) rss ∧
    (∀ rs2 : List (Range V), expandRanges rs2 = m → rsm.length ≤ rs2.length) ∧
    (∀ ds2 : List SRange, expandSRanges ds2 = s → rss.length ≤ ds2.length) := by
  obtain ⟨rs, h1, _, hch⟩ := compactMap_spec m hm
  obtain ⟨ds, h3, _, hch'⟩ := compactSet_spec s hs
  rw [hcm] at h1
  rw [hcs] at h3
  obtain rfl : rsm = rs := Option.some.inj h1
  obtain rfl : rss = ds := Option.some.inj h3
  refine ⟨hch.imp (fun _ _ h => h.2), hch', ?_, ?_⟩
  · intro rs2 hrs2
    cases m with
    | nil =>
      obtain rfl : rsm = [] := (Option.some.inj hcm).symm
      exact Nat.zero_le _
    | cons e rest =>
      obtain ⟨c, p⟩ := e
      have hm' : List.Chain' (fun a b : Nat × V => a.1 < b.1) ((c, p) :: rest) := hm
      obtain ⟨hhead, hrest⟩ := List.chain'_cons'.1 hm'
      have hlen := compactMapAux_length rest c c p rsm hrest hhead hcm
      have hne : expandRanges rs2 ≠ [] := by
        rw [hrs2]
        exact List.cons_ne_nil _ _
      have hge := breaks_expandRanges_le rs2 hne
      rw [hrs2] at hge
      omega
  · intro ds2 hds2
    cases s with
    | nil =>
      obtain rfl : rss = [] := (Option.some.inj hcs).symm
      exact Nat.zero_le _
    | cons c rest =>
      have hs' : List.Chain' (· < ·) (c :: rest) := hs
      obtain ⟨hhead, hrest⟩ := List.chain'_cons'.1 hs'
      have hlen := compactSetAux_length rest c c rss hrest hhead hcs
      have hne : expandSRanges ds2 ≠ [] := by
        rw [hds2]
        exact List.cons_ne_nil _ _
      have hge := breaksS_expandSRanges_le ds2 hne
      rw [hds2] at hge
      omega

/-- Witness for C5 at a concrete input. -/
theorem c5_minimality_witness :
    StrictKeys [(10, 0), (11, 0), (13, 0)] ∧ StrictAsc [2, 3, 7] ∧
      CharMap.compact [(10, 0), (11, 0), (13, 0)] = some [⟨10, 11, 0⟩, ⟨13, 13, 0⟩] ∧
      CharSet.compact [2, 3, 7] = some [⟨2, 3⟩, ⟨7, 7⟩] ∧
      (List.Chain' (fun r1 r2 : Range Nat => r1.high + 1 < r2.low ∨ r1.value ≠ r2.value)
          [⟨10, 11, 0⟩, ⟨13, 13, 0⟩] ∧
        List.Chain' (fun r1 r2 : SRange => r1.high + 1 < r2.low) [⟨2, 3⟩, ⟨7, 7⟩] ∧
        (∀ rs2 : List (Range Nat), expandRanges rs2 = [(10, 0), (11, 0), (13, 0)] →
          ([⟨10, 11, 0⟩, ⟨13, 13, 0⟩] : List (Range Nat)).length ≤ rs2.length) ∧
        (∀ ds2 : List SRange, expandSRanges ds2 = [2, 3, 7] →
          ([⟨2, 3⟩, ⟨7, 7⟩] : List SRange).length ≤ ds2.length)) :=
  ⟨by decide, by decide, by decide, by decide,
    c5_minimality [(10, 0), (11, 0), (13, 0)] [2, 3, 7] [⟨10, 11, 0⟩, ⟨13, 13, 0⟩]
      [⟨2, 3⟩, ⟨7, 7⟩] (by decide) (by decide) (by decide) (by decide)⟩

/-- Claim C6: gap non-merge — if codepoint `g` is absent from the map input
while codepoints `c1 < g < c2` are present (in particular when two
equal-valued contiguous runs are separated by the gap at `g`), then no
emitted range covers both `c1` and `c2`: the runs are never merged. -/
theorem c6_gap_non_merge {V : Type} [DecidableEq V] (m : List (Nat × V))
    (rs : List (Range V)) (c1 c2 g : Nat) (v1 v2 : V)
    (hm : StrictKeys m) (hc : CharMap.compact m = some rs)
    (_h1 : (c1, v1) ∈ m) (_h2 : (c2, v2) ∈ m)
    (hg1 : c1 < g) (hg2 : g < c2) (hgap : g ∉ m.map Prod.fst) :
    ∀ r ∈ rs, ¬(r.low ≤ c1 ∧ c2 ≤ r.high) := by
  intro r hr hand
  obtain ⟨hrl, hrh⟩ := hand
  obtain ⟨rs', heq, hexp, _⟩ := compactMap_spec m hm
  rw [hc] at heq
  obtain rfl : rs = rs' := Option.some.inj heq
  have hgmem : (g, r.value) ∈ expandRange r := by
    rw [expandRange]
    exact mem_spanPairs.2 ⟨by omega, by omega, rfl⟩
  have hin : (g, r.value) ∈ m := by
    rw [← hexp]
    exact mem_expandRanges hr hgmem
  exact hgap (List.mem_map_of_mem Prod.fst hin)

/-- Witness for C6: two equal-valued runs 97-99 and 101-103 with the gap at
100 compact to two ranges neither of which spans the gap. -/
theorem c6_gap_non_merge_witness :
    StrictKeys [(97, 0), (98, 0), (99, 0), (101, 0), (102, 0), (103, 0)] ∧
      CharMap.compact [(97, 0), (98, 0), (99, 0), (101, 0), (102, 0), (103, 0)] =
        some [⟨97, 99, 0⟩, ⟨101, 103, 0⟩] ∧
      ((99, 0) ∈ [(97, 0), (98, 0), (99, 0), (101, 0), (102, 0), (103, 0)]) ∧
      ((101, 0) ∈ [(97, 0), (98, 0), (99, 0), (101, 0), (102, 0), (103, 0)]) ∧
      99 < 100 ∧ 100 < 101 ∧
      (100 ∉ List.map Prod.fst [(97, 0), (98, 0), (99, 0), (101, 0), (102, 0), (103, 0)]) ∧
      ∀ r ∈ [Range.mk 97 99 (0 : Nat), Range.mk 101 103 0], ¬(r.low ≤ 99 ∧ 101 ≤ r.high) :=
  ⟨by decide, by decide, by decide, by decide, by decide, by decide, by decide,
    c6_gap_non_merge [(97, 0), (98, 0), (99, 0), (101, 0), (102, 0), (103, 0)]
      [⟨97, 99, 0⟩, ⟨101, 103, 0⟩] 99 101 100 0 0 (by decide) (by decide) (by decide)
      (by decide) (by decide) (by decide) (by decide)⟩

/-- Claim C7: escaping format and stability — every escaped boundary
codepoint is the backslash-u bracketed form over the digits of `hexDigits`,
each digit below 16 and rendered as a lowercase hexadecimal character, with
no leading zero (a zero head digit occurs only for codepoint 0, whose digit
list is exactly the single digit 0); and rendering is a pure function of its
input, so rendering the same input twice yields byte-identical output. -/
theorem c7_escape_format (c : Nat) :
    (escape_unicode c = "\\u\x7b" ++ String.mk ((hexDigits c).map hexDigitChar) ++ "\x7d" ∧
      hexDigits c ≠ [] ∧
      (∀ d ∈ hexDigits c, d < 16) ∧
      (∀ ch ∈ (hexDigits c).map hexDigitChar, isLowerHex ch) ∧
      (∀ d ∈ (hexDigits c).head?, d = 0 → c = 0 ∧ hexDigits c = [0])) ∧
    (∀ (m : List (Nat × Nat)) (f : Nat → String),
      CharMap.to_bsearch_table m f = CharMap.to_bsearch_table m f) ∧
    (∀ s : List Nat, CharSet.to_bsearch_table s = CharSet.to_bsearch_table s) := by
  refine ⟨⟨rfl, hexDigitsCore_ne_nil c c, fun d hd => hexDigitsCore_lt16 c c d hd, ?_, ?_⟩,
    fun m f => rfl, fun s => rfl⟩
  · intro ch hch
    obtain ⟨d, hd, rfl⟩ := List.mem_map.1 hch
    have hd16 := hexDigitsCore_lt16 c c d hd
    have hall : ∀ d, d < 16 → isLowerHex (hexDigitChar d) := by decide
    exact hall d hd16
  · intro d hd hd0
    by_cases hc : c = 0
    · subst hc
      exact ⟨rfl, by decide⟩
    · exact absurd hd0 (hexDigitsCore_head_ne_zero c c le_rfl (Nat.pos_of_ne_zero hc) d hd)

/-- Claim C8: the concrete nine-entry map compacts to exactly the three
triples (a, c, Low), (d, f, Mid), (x, z, High) in that order, and renders
with escaped boundaries exactly as in the source's unit test. -/
theorem c8_concrete_map :
    CharMap.compact
        [(97, "Low"), (98, "Low"), (99, "Low"), (100, "Mid"), (101, "Mid"), (102, "Mid"),
          (120, "High"), (121, "High"), (122, "High")] =
      some [⟨97, 99, "Low"⟩, ⟨100, 102, "Mid"⟩, ⟨120, 122, "High"⟩] ∧
    CharMap.to_bsearch_table_default
        [(97, "Low"), (98, "Low"), (99, "Low"), (100, "Mid"), (101, "Mid"), (102, "Mid"),
          (120, "High"), (121, "High"), (122, "High")] (fun s => s) =
      some ("&[\n    (\x27\\u\x7b61\x7d\x27, \x27\\u\x7b63\x7d\x27, Low),\n" ++
        "    (\x27\\u\x7b64\x7d\x27, \x27\\u\x7b66\x7d\x27, Mid),\n" ++
        "    (\x27\\u\x7b78\x7d\x27, \x27\\u\x7b7a\x7d\x27, High),\n]") := by
  constructor
  · decide
  · decide

/-- Claim C9 (implicit safety): with strictly ascending codepoints — the
iteration order guarantee of the source's ordered containers — both
compaction loops are total: the contiguity assertion never fails and a
rendered table is always returned. -/
theorem c9_total_on_sorted {V : Type} [DecidableEq V] (m : List (Nat × V)) (s : List Nat)
    (display_fn : V → String) (hm : StrictKeys m) (hs : StrictAsc s) :
    (CharMap.compact m).isSome ∧ (CharMap.to_bsearch_table m display_fn).isSome ∧
    (CharSet.compact s).isSome ∧ (CharSet.to_bsearch_table s).isSome := by
  obtain ⟨rs, h1, _, _⟩ := compactMap_spec m hm
  obtain ⟨ds, h3, _, _⟩ := compactSet_spec s hs
  refine ⟨by rw [h1]; rfl, ?_, by rw [h3]; rfl, ?_⟩
  · rw [mapTable_eq, h1]
    rfl
  · rw [setTable_eq, h3]
    rfl

/-- Witness for C9 at a concrete input. -/
theorem c9_total_on_sorted_witness :
    StrictKeys [(4, 0), (5, 0), (9, 2)] ∧ StrictAsc [7, 8] ∧
      ((CharMap.compact [(4, 0), (5, 0), (9, 2)]).isSome ∧
        (CharMap.to_bsearch_table [(4, 0), (5, 0), (9, 2)] (fun _ => "x")).isSome ∧
        (CharSet.compact [7, 8]).isSome ∧ (CharSet.to_bsearch_table [7, 8]).isSome) :=
  ⟨by decide, by decide,
    c9_total_on_sorted [(4, 0), (5, 0), (9, 2)] [7, 8] (fun _ => "x") (by decide) (by decide)⟩

/-- Claim C10: the default-formatter endpoint produces exactly the same
string as the general endpoint called with the function that renders each
value via its Display representation (modelled by `display`). -/
theorem c10_default_formatter {V : Type} [DecidableEq V] (m : List (Nat × V))
    (display : V → String) :
    CharMap.to_bsearch_table_default m display =
      CharMap.to_bsearch_table m (fun t => display t) := rfl
